import Mathlib

/-!
Shallow embedding of `refactor.go` from the gauge repository: the rephrase
refactoring engine.  Pure helper functions are translated directly; external
collaborators (phrase tokenizer, document discovery, runner transport,
formatter/file writer) are modelled as oracle parameters or, where the claims
need their behaviour, as definitions marked `Modelled from the spec`.
Go maps keyed by `int` are embedded as association lists `List (Nat × Int)`
(lookup of a missing key yields Go's zero value `0`); Go `nil` slices are
empty lists; Go panics (out-of-range indexing) are `Option.none`; side
effects (file writes, runner round trips) are recorded in an explicit
effect trace returned alongside the result.
-/

namespace Gauge

/-- A parse result from the external parser: ok flag, error message and
warning messages (`warning.message` in the source). -/
structure parseResult where
  ok : Bool
  error : String
  warnings : List String
deriving DecidableEq, Repr

/-- Structure `refactoringResult` from refactor.go: success flag, changed-file lists,
errors and warnings. -/
structure refactoringResult where
  success : Bool
  specsChanged : List String
  conceptsChanged : List String
  runnerFilesChanged : List String
  errors : List String
  warnings : List String
deriving DecidableEq, Repr

/-- A fragment of a step's phrase: literal text or a parameter holding a
display value (`gauge_messages.Fragment`). -/
inductive fragment where
  | text (s : String)
  | param (v : String)
deriving DecidableEq, Repr

/-- The fields of the Go `step` struct that the refactorer reads: canonical
value, the source line text, the ordered argument tokens (`arg.String()`),
and the display fragments. -/
structure step where
  value : String
  lineText : String
  args : List String
  fragments : List fragment
deriving DecidableEq, Repr

/-- A specification document: file name plus the step occurrences it
contains, each given by its canonical step text. -/
structure specification where
  fileName : String
  steps : List String
deriving DecidableEq, Repr

/-- An item of a concept's body: a step occurrence (with its canonical step
text) or any non-step item kind. -/
inductive conceptItem where
  | stepItem (v : String)
  | otherItem
deriving DecidableEq, Repr

/-- An entry of the concept dictionary: the concept's file and the items of
its body (`concept.conceptStep.items`). -/
structure concept where
  fileName : String
  items : List conceptItem
deriving DecidableEq, Repr

/-- Wire shape `StepNameResponse`. -/
structure StepNameResponse where
  isStepPresent : Bool
  hasAlias : Bool
  stepName : List String
deriving DecidableEq, Repr

/-- A runner step value (`stepValue`): canonical text plus literal argument
values. -/
structure stepValue where
  value : String
  args : List String
deriving DecidableEq, Repr

/-- Wire shape `ParameterPosition`. -/
structure ParameterPosition where
  newPosition : Nat
  oldPosition : Int
deriving DecidableEq, Repr

/-- Wire shape `RefactorRequest`. -/
structure RefactorRequest where
  oldStepValue : stepValue
  newStepValue : stepValue
  paramPositions : List ParameterPosition
deriving DecidableEq, Repr

/-- Wire shape `RefactorResponse` (a transport timeout is already collapsed
into a failed response by `sendRefactorRequest`, so every outcome has this
shape). -/
structure RefactorResponse where
  success : Bool
  error : String
  filesChanged : List String
deriving DecidableEq, Repr

/-- Observable side effects of a refactoring run, recorded in order. -/
inductive effect where
  | phraseParse
  | projectRootLookup
  | specsDiscovery
  | conceptsDiscovery
  | docRewrite
  | fileWrite (f : String)
  | runnerConnect
  | stepNameCall
  | refactorCall
deriving DecidableEq, Repr

/-- The loop of SliceIndex: with `fuel` iterations left, test indices
`i, i+1, ...`; return the first hit or `-1` when the fuel runs out. -/
def sliceIndexAux (p : Nat → Bool) : Nat → Nat → Int
  | 0, _ => -1
  | fuel + 1, i => if p i then (i : Int) else sliceIndexAux p fuel (i + 1)

/-- Function `SliceIndex(limit, predicate)` from refactor.go: the first `i` in
`[0, limit)` satisfying the predicate, else `-1`. -/
def SliceIndex (limit : Nat) (p : Nat → Bool) : Int :=
  sliceIndexAux p limit 0

/-- Function `createOrderOfArgs`: for each new argument position `i`, the first old
position whose argument token equals the new token, or `-1`.  The Go
`map[int]int` (keys are exactly `0..len(newArgs)-1`, in insertion order) is
the association list of those pairs. -/
def createOrderOfArgs (oldArgs newArgs : List String) : List (Nat × Int) :=
  (List.range newArgs.length).map fun i =>
    (i, SliceIndex oldArgs.length fun j => oldArgs.getD j "" == newArgs.getD i "")

/-- Go map read `orderMap[k]`: the stored value, or the zero value `0` when
the key is absent. -/
def lookupOM (om : List (Nat × Int)) (k : Nat) : Int :=
  (om.lookup k).getD 0

theorem sliceIndexAux_spec (p : Nat → Bool) :
    ∀ fuel i : Nat,
      (sliceIndexAux p fuel i = -1 ∧ ∀ j, i ≤ j → j < i + fuel → p j = false) ∨
      (∃ j : Nat, sliceIndexAux p fuel i = (j : Int) ∧ i ≤ j ∧ j < i + fuel ∧
        p j = true ∧ ∀ k, i ≤ k → k < j → p k = false) := by
  intro fuel
  induction fuel with
  | zero => intro i; left; exact ⟨rfl, by omega⟩
  | succ n ih =>
    intro i
    by_cases hp : p i
    · right
      exact ⟨i, by simp [sliceIndexAux, hp], Nat.le_refl i, by omega, hp, by omega⟩
    · rcases ih (i + 1) with ⟨hval, hnone⟩ | ⟨j, hval, hij, hlt, hpj, hmin⟩
      · left
        refine ⟨by simp [sliceIndexAux, hp, hval], ?_⟩
        intro j hij hjlt
        rcases Nat.eq_or_lt_of_le hij with rfl | h
        · exact Bool.eq_false_iff.mpr hp
        · exact hnone j h (by omega)
      · right
        refine ⟨j, by simp [sliceIndexAux, hp, hval], by omega, by omega, hpj, ?_⟩
        intro k hik hkj
        rcases Nat.eq_or_lt_of_le hik with rfl | h
        · exact Bool.eq_false_iff.mpr hp
        · exact hmin k h hkj

theorem SliceIndex_spec (limit : Nat) (p : Nat → Bool) :
    (SliceIndex limit p = -1 ∧ ∀ j, j < limit → p j = false) ∨
    (∃ j : Nat, SliceIndex limit p = (j : Int) ∧ j < limit ∧ p j = true ∧
      ∀ k, k < j → p k = false) := by
  rcases sliceIndexAux_spec p limit 0 with ⟨hval, hnone⟩ | ⟨j, hval, _, hlt, hpj, hmin⟩
  · exact Or.inl ⟨hval, fun j hj => hnone j (Nat.zero_le j) (by omega)⟩
  · exact Or.inr ⟨j, hval, by omega, hpj, fun k hk => hmin k (Nat.zero_le k) hk⟩

/-- C1: `createOrderOfArgs` returns an Order Map whose domain is exactly the
indices `0..len(newArgs)-1`; its value at each new index `i` is the smallest
old index whose argument token equals the new argument's token, or `-1` when
no old token is equal (first match by ascending old index wins). -/
theorem createOrderOfArgs_spec (oldArgs newArgs : List String) :
    ((createOrderOfArgs oldArgs newArgs).map Prod.fst = List.range newArgs.length) ∧
    (∀ i : Nat, i < newArgs.length →
      ((i, (-1 : Int)) ∈ createOrderOfArgs oldArgs newArgs ∧
        ∀ j, j < oldArgs.length → oldArgs.getD j "" ≠ newArgs.getD i "") ∨
      (∃ j : Nat, (i, (j : Int)) ∈ createOrderOfArgs oldArgs newArgs ∧
        j < oldArgs.length ∧ oldArgs.getD j "" = newArgs.getD i "" ∧
        ∀ k, k < j → oldArgs.getD k "" ≠ newArgs.getD i "")) := by
  constructor
  · simp only [createOrderOfArgs, List.map_map]
    exact List.map_id _
  · intro i hi
    have hmem : (i, SliceIndex oldArgs.length
        fun j => oldArgs.getD j "" == newArgs.getD i "") ∈
        createOrderOfArgs oldArgs newArgs := by
      simp only [createOrderOfArgs, List.mem_map]
      exact ⟨i, List.mem_range.mpr hi, rfl⟩
    rcases SliceIndex_spec oldArgs.length
        (fun j => oldArgs.getD j "" == newArgs.getD i "") with
      ⟨hval, hnone⟩ | ⟨j, hval, hlt, hpj, hmin⟩
    · left
      rw [hval] at hmem
      refine ⟨hmem, fun j hj heq => ?_⟩
      have := hnone j hj
      simp only [beq_eq_false_iff_ne, ne_eq] at this
      exact this heq
    · right
      rw [hval] at hmem
      refine ⟨j, hmem, hlt, by simpa using hpj, fun k hk heq => ?_⟩
      have := hmin k hk
      simp only [beq_eq_false_iff_ne, ne_eq] at this
      exact this heq

/-- Witness for C1 at a concrete input: old args `[from, to]`, new args
`[to, from]` give the Order Map `{0 ↦ 1, 1 ↦ 0}`. -/
theorem createOrderOfArgs_spec_witness :
    ((createOrderOfArgs ["from", "to"] ["to", "from"]).map Prod.fst =
      List.range 2) ∧
    (((0, (-1 : Int)) ∈ createOrderOfArgs ["from", "to"] ["to", "from"] ∧
        ∀ j, j < 2 → ["from", "to"].getD j "" ≠ ["to", "from"].getD 0 "") ∨
      (∃ j : Nat, (0, (j : Int)) ∈ createOrderOfArgs ["from", "to"] ["to", "from"] ∧
        j < 2 ∧ ["from", "to"].getD j "" = ["to", "from"].getD 0 "" ∧
        ∀ k, k < j → ["from", "to"].getD k "" ≠ ["to", "from"].getD 0 "")) := by
  have h := createOrderOfArgs_spec ["from", "to"] ["to", "from"]
  exact ⟨h.1, h.2 0 (by decide)⟩

/-- Function `createParameterPositions`: one wire entry per Order Map pair, carrying
the new position (the key) and the mapped old position (the value).  The Go
loop appends in map-iteration order; the association list's insertion order
is the representative order here. -/
def createParameterPositions (om : List (Nat × Int)) : List ParameterPosition :=
  om.map fun kv => { newPosition := kv.1, oldPosition := kv.2 }

/-- Modelled from the spec: `convertToStepText` (not under src/) rebuilds the
display text from fragments — literal fragments verbatim, parameter fragments
as the parameter value in angle brackets. -/
def convertToStepText (frs : List fragment) : String :=
  frs.foldl (fun acc fr =>
    acc ++ match fr with
      | fragment.text s => s
      | fragment.param v => "<" ++ v ++ ">") ""

/-- The fragment loop of `generateNewStepName`: walk the new step's
fragments keeping a running parameter index `p`; a parameter fragment whose
order-mapped old position is not `-1` gets the old argument value at that
position (an out-of-range read is Go's panic, `none`); a sentinel-mapped
fragment keeps its placeholder value.  `p` advances only on parameter
fragments. -/
def substFragments (args : List String) (om : List (Nat × Int)) :
    List fragment → Nat → Option (List fragment)
  | [], _ => some []
  | fragment.text s :: rest, p =>
    match substFragments args om rest p with
    | none => none
    | some rest' => some (fragment.text s :: rest')
  | fragment.param v :: rest, p =>
    if lookupOM om p = -1 then
      match substFragments args om rest (p + 1) with
      | none => none
      | some rest' => some (fragment.param v :: rest')
    else if lookupOM om p < 0 then none
    else
      match args.get? (lookupOM om p).toNat with
      | none => none
      | some a =>
        match substFragments args om rest (p + 1) with
        | none => none
        | some rest' => some (fragment.param a :: rest')

/-- Function `generateNewStepName`: substitute the order-mapped old argument values
into the new step's (populated) fragments, then render the step text. -/
def generateNewStepName (args : List String) (om : List (Nat × Int))
    (newFragments : List fragment) : Option String :=
  (substFragments args om newFragments 0).map convertToStepText

/-- Function `getStepNameFromRunner`: given the transport outcome of the StepName
round trip: a transport error propagates; a response with the step absent or
aliased yields the corresponding error; otherwise the first returned name is
read — `GetStepName()[0]` panics (`none`) on an empty list. -/
def getStepNameFromRunner (lineText : String)
    (resp : Except String StepNameResponse) : Option (Except String String) :=
  match resp with
  | .error e => some (.error e)
  | .ok r =>
    if !r.isStepPresent then
      some (.error ("Step implementation not found: " ++ lineText))
    else if r.hasAlias then
      some (.error ("steps with aliases : '" ++
        String.intercalate "', '" r.stepName ++ "' cannot be refactored."))
    else
      match r.stepName with
      | [] => none
      | n :: _ => some (.ok n)

/-- Function `createRefactorRequest`: extract the old Step Value from the canonical
name, generate the new step text through the Order Map, extract the new Step
Value, and package both with the parameter-position list
(`extractSV` is the external `extractStepValueAndParams`). -/
def createRefactorRequest (oldStep newStep : step)
    (extractSV : String → Except String stepValue) (stepName : String) :
    Option (Except String RefactorRequest) :=
  match extractSV stepName with
  | .error e => some (.error e)
  | .ok oldSV =>
    let om := createOrderOfArgs oldStep.args newStep.args
    match generateNewStepName oldSV.args om newStep.fragments with
    | none => none
    | some newName =>
      match extractSV newName with
      | .error e => some (.error e)
      | .ok newSV =>
        some (.ok { oldStepValue := oldSV, newStepValue := newSV,
                    paramPositions := createParameterPositions om })

/-- Modelled from the spec: `specification.renameSteps` (not under src/)
rewrites every step occurrence whose text equals the old step's text to the
new step's text and reports whether at least one occurrence in the document
changed; a document with zero matches is not flagged. -/
def renameSteps (oldV newV : String) (doc : specification) : specification × Bool :=
  ({ doc with steps := doc.steps.map fun s => if s == oldV then newV else s },
   doc.steps.any fun s => s == oldV)

/-- Modelled from the spec: `step.rename` on a concept-body item (not under
src/) renames a matching occurrence and reports whether it matched the old
step; the source guards with `item.kind() == stepKind`, so a non-step item
never matches. -/
def itemRenamed (oldV : String) (it : conceptItem) : Bool :=
  match it with
  | conceptItem.stepItem v => v == oldV
  | conceptItem.otherItem => false

/-- Go map read `m[f]` on a `map[string]bool`: stored value or `false`. -/
def lookupFlag (m : List (String × Bool)) (f : String) : Bool :=
  (m.lookup f).getD false

/-- Go map write `m[f] = b`. -/
def updateFlag : List (String × Bool) → String → Bool → List (String × Bool)
  | [], f, b => [(f, b)]
  | (g, c) :: rest, f, b =>
    if g == f then (g, b) :: rest else (g, c) :: updateFlag rest f b

/-- The body of the concept loop in `rephraseInSpecsAndConcepts`: the no-op
assignment of lines 110-111 materialises the file's key, then each body item
folds its rename outcome into the file's flag
(`item.kind() == stepKind && item.rename(...) || isRefactored`). -/
def conceptLoopBody (oldV : String) (m : List (String × Bool)) (c : concept) :
    List (String × Bool) :=
  let m := updateFlag m c.fileName (lookupFlag m c.fileName)
  c.items.foldl (fun m it =>
    let isRefactored := lookupFlag m c.fileName
    updateFlag m c.fileName (itemRenamed oldV it || isRefactored)) m

/-- Function `rephraseInSpecsAndConcepts`: rename in every specification, recording
each document's changed flag, and fold the concept-file flags across the
concept dictionary. -/
def rephraseInSpecsAndConcepts (oldV newV : String) (specs : List specification)
    (dict : List concept) : List (specification × Bool) × List (String × Bool) :=
  (specs.map (renameSteps oldV newV), dict.foldl (conceptLoopBody oldV) [])

/-- Modelled from the spec: the concept formatter `formatConcepts` (not under
src/) yields one formatted text per concept file; its key set is the set of
concept file names. -/
def conceptFileKeys (dict : List concept) : List String :=
  (dict.map fun c => c.fileName).dedup

/-- Function `writeToConceptAndSpecFiles`: list (and save — recorded as `fileWrite`
effects) exactly the flagged specification documents and the flagged concept
files. -/
def writeToConceptAndSpecFiles (specsRef : List (specification × Bool))
    (conceptKeys : List String) (conceptFlags : List (String × Bool)) :
    (List String × List String) × List effect :=
  let specFiles := (specsRef.filter fun sb => sb.2).map fun sb => sb.1.fileName
  let conceptFiles := conceptKeys.filter fun f => lookupFlag conceptFlags f
  ((specFiles, conceptFiles), (specFiles ++ conceptFiles).map effect.fileWrite)

/-- Function `rephraseFailure`: a failure result carrying only the given errors. -/
def rephraseFailure (errs : List String) : refactoringResult :=
  { success := false, specsChanged := [], conceptsChanged := [],
    runnerFilesChanged := [], errors := errs, warnings := [] }

/-- Function `addErrorsAndWarningsToRefactoringResult`: fold every parse result into
the refactoring result — a failing one flips success off and appends its
error; warnings are appended unconditionally. -/
def addErrorsAndWarningsToRefactoringResult (r : refactoringResult)
    (prs : List parseResult) : refactoringResult :=
  prs.foldl (fun acc pr =>
    let acc' := if !pr.ok then
        { acc with success := false, errors := acc.errors ++ [pr.error] }
      else acc
    { acc' with warnings := acc'.warnings ++ pr.warnings }) r

/-- The runner-side collaborators of one attempt: the connection outcome of
`startRunner`, the StepName round-trip outcome, the external
`extractStepValueAndParams`, and the refactor round trip (timeouts already
collapsed into a failed response). -/
structure runnerEnv where
  connErr : Option String
  stepNameResp : Except String StepNameResponse
  extractSV : String → Except String stepValue
  refactorSend : RefactorRequest → RefactorResponse

/-- Function `requestRunnerForRefactoring`: build the request (a build error returns
before any send), send it, and pair the runner-reported changed files with
the error of an unsuccessful response. -/
def requestRunnerForRefactoring (oldStep newStep : step) (renv : runnerEnv)
    (stepName : String) : Option (List String × Option String) × List effect :=
  match createRefactorRequest oldStep newStep renv.extractSV stepName with
  | none => (none, [])
  | some (.error e) => (some ([], some e), [])
  | some (.ok req) =>
    let resp := renv.refactorSend req
    (some (resp.filesChanged, if resp.success then none else some resp.error),
     [effect.refactorCall])

/-- The document half of `performRefactoringOn` (lines 76-77): rephrase in
all documents, then persist and list the flagged ones. -/
def documentStage (oldStep newStep : step) (specs : List specification)
    (dict : List concept) : (List String × List String) × List effect :=
  let sr := rephraseInSpecsAndConcepts oldStep.value newStep.value specs dict
  writeToConceptAndSpecFiles sr.1 (conceptFileKeys dict) sr.2

/-- Function `performRefactoringOn`: document rewrite and persistence first, then the
runner stages; the result starts with `success := false` and the computed
file lists, and only the fully successful path sets `success := true` and
the runner files. -/
def performRefactoringOn (oldStep newStep : step) (specs : List specification)
    (dict : List concept) (renv : runnerEnv) :
    Option refactoringResult × List effect :=
  let ds := documentStage oldStep newStep specs dict
  let baseEffects := effect.docRewrite :: ds.2
  let r0 : refactoringResult :=
    { success := false, specsChanged := ds.1.1, conceptsChanged := ds.1.2,
      runnerFilesChanged := [], errors := [], warnings := [] }
  match renv.connErr with
  | some e =>
    (some { r0 with errors := r0.errors ++ [e] },
     baseEffects ++ [effect.runnerConnect])
  | none =>
    match getStepNameFromRunner oldStep.lineText renv.stepNameResp with
    | none => (none, baseEffects ++ [effect.runnerConnect, effect.stepNameCall])
    | some (.error e) =>
      (some { r0 with errors := r0.errors ++ [e] },
       baseEffects ++ [effect.runnerConnect, effect.stepNameCall])
    | some (.ok stepName) =>
      let rq := requestRunnerForRefactoring oldStep newStep renv stepName
      let effs := baseEffects ++ [effect.runnerConnect, effect.stepNameCall] ++ rq.2
      match rq.1 with
      | none => (none, effs)
      | some (_, some e) =>
        (some { r0 with errors :=
          r0.errors ++ ["Only spec files and concepts refactored: " ++ e] }, effs)
      | some (files, none) =>
        (some { r0 with success := true, runnerFilesChanged := files }, effs)

/-- The collaborators of one `performRephraseRefactoring` invocation:
phrase parsing (`getRefactorAgent`), project-root lookup, the discovered
documents with their parse results, the concept dictionary with its parse
result, and the runner side. -/
structure refactorEnv where
  agentResult : Except String (step × step)
  projectRoot : Except String String
  specs : List specification
  specParseResults : List parseResult
  concepts : List concept
  conceptParseResult : parseResult
  runner : runnerEnv

/-- Function `performRephraseRefactoring`: equal phrases fail immediately; then phrase
parsing, project-root lookup, specification discovery and concept-dictionary
construction each short-circuit on failure; only then does the refactoring
itself run, and the pre-check warnings are merged into its result. -/
def performRephraseRefactoring (env : refactorEnv) (oldS newS : String) :
    Option refactoringResult × List effect :=
  if newS = oldS then
    (some (rephraseFailure ["Same old step name and new step name."]), [])
  else
    match env.agentResult with
    | .error e => (some (rephraseFailure [e]), [effect.phraseParse])
    | .ok (oldStep, newStep) =>
      match env.projectRoot with
      | .error e =>
        (some (rephraseFailure [e]), [effect.phraseParse, effect.projectRootLookup])
      | .ok _ =>
        let result : refactoringResult :=
          { success := true, specsChanged := [], conceptsChanged := [],
            runnerFilesChanged := [], errors := [], warnings := [] }
        let result := addErrorsAndWarningsToRefactoringResult result env.specParseResults
        if !result.success then
          (some result,
           [effect.phraseParse, effect.projectRootLookup, effect.specsDiscovery])
        else
          let result := addErrorsAndWarningsToRefactoringResult result [env.conceptParseResult]
          if !result.success then
            (some result,
             [effect.phraseParse, effect.projectRootLookup, effect.specsDiscovery,
              effect.conceptsDiscovery])
          else
            let pr := performRefactoringOn oldStep newStep env.specs env.concepts env.runner
            (pr.1.map fun r => { r with warnings := r.warnings ++ result.warnings },
             [effect.phraseParse, effect.projectRootLookup, effect.specsDiscovery,
              effect.conceptsDiscovery] ++ pr.2)

/-- The errors a list of parse results contributes: one per failing entry. -/
def collectErrors (prs : List parseResult) : List String :=
  (prs.filter fun pr => !pr.ok).map fun pr => pr.error

/-- The warnings a list of parse results contributes, in order. -/
def collectWarnings (prs : List parseResult) : List String :=
  (prs.map fun pr => pr.warnings).flatten

/-- Effects that mutate state or contact the runner, as opposed to read-only
parsing and discovery. -/
def effect.isMutation : effect → Bool
  | effect.docRewrite => true
  | effect.fileWrite _ => true
  | effect.runnerConnect => true
  | effect.stepNameCall => true
  | effect.refactorCall => true
  | _ => false

/-- The parameter values of a fragment list, in order. -/
def paramValues (frs : List fragment) : List String :=
  frs.filterMap fun fr =>
    match fr with
    | fragment.param v => some v
    | fragment.text _ => none

theorem substFragments_params (args : List String) (om : List (Nat × Int)) :
    ∀ frs : List fragment, ∀ p : Nat, ∀ frs' : List fragment,
      substFragments args om frs p = some frs' →
      (paramValues frs').length = (paramValues frs).length ∧
      ∀ k, k < (paramValues frs).length →
        (lookupOM om (p + k) = -1 →
          (paramValues frs').get? k = (paramValues frs).get? k) ∧
        (lookupOM om (p + k) ≠ -1 →
          (paramValues frs').get? k = args.get? (lookupOM om (p + k)).toNat) := by
  intro frs
  induction frs with
  | nil =>
    intro p frs' h
    simp only [substFragments, Option.some.injEq] at h
    subst h
    exact ⟨rfl, fun k hk => absurd hk (by simp [paramValues])⟩
  | cons fr rest ih =>
    intro p frs' h
    cases fr with
    | text s =>
      simp only [substFragments] at h
      cases hrec : substFragments args om rest p with
      | none => rw [hrec] at h; exact absurd h (by simp)
      | some rest' =>
        rw [hrec] at h
        simp only [Option.some.injEq] at h
        subst h
        have := ih p rest' hrec
        simpa [paramValues] using this
    | param v =>
      simp only [substFragments] at h
      by_cases hm1 : lookupOM om p = -1
      · rw [if_pos hm1] at h
        cases hrec : substFragments args om rest (p + 1) with
        | none => rw [hrec] at h; exact absurd h (by simp)
        | some rest' =>
          rw [hrec] at h
          simp only [Option.some.injEq] at h
          subst h
          obtain ⟨hlen, hk⟩ := ih (p + 1) rest' hrec
          refine ⟨by simpa [paramValues] using hlen, ?_⟩
          intro k hklt
          cases k with
          | zero => simp [paramValues, hm1]
          | succ k' =>
            have hk' := hk k' (by simpa [paramValues] using hklt)
            have harith : p + 1 + k' = p + (k' + 1) := by omega
            rw [harith] at hk'
            simpa [paramValues] using hk'
      · rw [if_neg hm1] at h
        by_cases hneg : lookupOM om p < 0
        · rw [if_pos hneg] at h; exact absurd h (by simp)
        · rw [if_neg hneg] at h
          cases harg : args.get? (lookupOM om p).toNat with
          | none => rw [harg] at h; exact absurd h (by simp)
          | some a =>
            rw [harg] at h
            cases hrec : substFragments args om rest (p + 1) with
            | none => rw [hrec] at h; exact absurd h (by simp)
            | some rest' =>
              rw [hrec] at h
              simp only [Option.some.injEq] at h
              subst h
              obtain ⟨hlen, hk⟩ := ih (p + 1) rest' hrec
              refine ⟨by simpa [paramValues] using hlen, ?_⟩
              intro k hklt
              cases k with
              | zero => exact ⟨fun hc => absurd hc (by simpa using hm1),
                  fun _ => by simpa [paramValues] using harg.symm⟩
              | succ k' =>
                have hk' := hk k' (by simpa [paramValues] using hklt)
                have harith : p + 1 + k' = p + (k' + 1) := by omega
                rw [harith] at hk'
                simpa [paramValues] using hk'

/-- C5: `generateNewStepName` puts into each parameter fragment at parameter
position `i` the old argument value at the order-mapped position
`orderMap[i]`, and leaves sentinel-mapped fragments as their symbolic
placeholders; for old step `transfer <from> to <to>` and new step
`transfer <to> from <from>` the Order Map is `{0 ↦ 1, 1 ↦ 0}` and the
generated step text places old argument 1 at new position 0 and old
argument 0 at new position 1. -/
theorem generateNewStepName_spec :
    (∀ (args : List String) (om : List (Nat × Int)) (frs frs' : List fragment),
      substFragments args om frs 0 = some frs' →
      (paramValues frs').length = (paramValues frs).length ∧
      ∀ k, k < (paramValues frs).length →
        (lookupOM om k = -1 →
          (paramValues frs').get? k = (paramValues frs).get? k) ∧
        (lookupOM om k ≠ -1 →
          (paramValues frs').get? k = args.get? (lookupOM om k).toNat)) ∧
    createOrderOfArgs ["from", "to"] ["to", "from"] = [(0, 1), (1, 0)] ∧
    (∀ a0 a1 : String,
      substFragments [a0, a1] [(0, 1), (1, 0)]
        [fragment.text "transfer ", fragment.param "to",
         fragment.text " from ", fragment.param "from"] 0 =
      some [fragment.text "transfer ", fragment.param a1,
            fragment.text " from ", fragment.param a0]) ∧
    generateNewStepName ["from", "to"] [(0, 1), (1, 0)]
        [fragment.text "transfer ", fragment.param "to",
         fragment.text " from ", fragment.param "from"] =
      some "transfer <to> from <from>" := by
  refine ⟨?_, by decide, ?_, by decide⟩
  · intro args om frs frs' h
    have := substFragments_params args om frs 0 frs' h
    simpa using this
  · intro a0 a1
    simp [substFragments, lookupOM, List.lookup]

/-- Witness for C5 at a concrete input: substituting with map `{0 ↦ 0}` into
a single parameter fragment yields one parameter value. -/
theorem generateNewStepName_spec_witness :
    (paramValues [fragment.param "a"]).length =
      (paramValues [fragment.param "v"]).length :=
  (generateNewStepName_spec.1 ["a"] [(0, 0)] [fragment.param "v"]
    [fragment.param "a"] (by decide)).1

/-- C6: `getStepNameFromRunner` fails with the step-implementation-not-found
error naming the old step's line text exactly when the response reports the
step absent; fails with the aliased-steps error listing all alias names
joined by `', '` exactly when the response reports aliases; and otherwise
returns the first canonical name. -/
theorem getStepNameFromRunner_cases (lineText : String) (r : StepNameResponse) :
    (r.isStepPresent = false →
      getStepNameFromRunner lineText (.ok r) =
        some (.error ("Step implementation not found: " ++ lineText))) ∧
    (r.isStepPresent = true → r.hasAlias = true →
      getStepNameFromRunner lineText (.ok r) =
        some (.error ("steps with aliases : '" ++
          String.intercalate "', '" r.stepName ++ "' cannot be refactored."))) ∧
    (r.isStepPresent = true → r.hasAlias = false →
      ∀ n rest, r.stepName = n :: rest →
        getStepNameFromRunner lineText (.ok r) = some (.ok n)) := by
  refine ⟨fun habs => ?_, fun hpres hal => ?_, fun hpres hal n rest hlist => ?_⟩
  · simp [getStepNameFromRunner, habs]
  · simp [getStepNameFromRunner, hpres, hal]
  · simp [getStepNameFromRunner, hpres, hal, hlist]

/-- Witness for C6 at a concrete input: a response with aliases
`[stepA, stepB]` produces the error message joining both names with `', '`. -/
theorem getStepNameFromRunner_cases_witness :
    getStepNameFromRunner "line" (.ok ⟨true, true, ["stepA", "stepB"]⟩) =
      some (.error ("steps with aliases : '" ++
        String.intercalate "', '" ["stepA", "stepB"] ++
        "' cannot be refactored.")) :=
  (getStepNameFromRunner_cases "line" ⟨true, true, ["stepA", "stepB"]⟩).2.1 rfl rfl

/-- C9: the parameter-position list placed in the RefactorRequest has, as a
set, exactly one entry per Order Map key — its new positions enumerate
`0..len(newStep.args)-1` — with each entry's `newPosition` the key and
`oldPosition` the mapped value (sentinel entries included); and
`createRefactorRequest` puts exactly `createParameterPositions` of the Order
Map into the request. -/
theorem createParameterPositions_spec (oldStep newStep : step)
    (extractSV : String → Except String stepValue) (stepName : String) :
    ((createParameterPositions (createOrderOfArgs oldStep.args newStep.args)).map
        (fun pp => pp.newPosition) = List.range newStep.args.length ∧
      (∀ pp ∈ createParameterPositions (createOrderOfArgs oldStep.args newStep.args),
        (pp.newPosition, pp.oldPosition) ∈ createOrderOfArgs oldStep.args newStep.args) ∧
      (∀ kv ∈ createOrderOfArgs oldStep.args newStep.args,
        ({ newPosition := kv.1, oldPosition := kv.2 } : ParameterPosition) ∈
          createParameterPositions (createOrderOfArgs oldStep.args newStep.args))) ∧
    (∀ req : RefactorRequest,
      createRefactorRequest oldStep newStep extractSV stepName = some (.ok req) →
      req.paramPositions =
        createParameterPositions (createOrderOfArgs oldStep.args newStep.args)) := by
  refine ⟨⟨?_, ?_, ?_⟩, ?_⟩
  · simp only [createParameterPositions, List.map_map]
    simp only [createOrderOfArgs, List.map_map]
    exact List.map_id _
  · intro pp hpp
    simp only [createParameterPositions, List.mem_map] at hpp
    obtain ⟨kv, hkv, rfl⟩ := hpp
    exact hkv
  · intro kv hkv
    simp only [createParameterPositions, List.mem_map]
    exact ⟨kv, hkv, rfl⟩
  · intro req h
    simp only [createRefactorRequest] at h
    split at h
    · exact absurd h (by simp)
    · split at h
      · exact absurd h (by simp)
      · split at h
        · exact absurd h (by simp)
        · simp only [Option.some.injEq, Except.ok.injEq] at h
          rw [← h]

/-- Witness for C9 at a concrete input: for old args `[x]` and new args
`[x, y]` every order-map pair appears as a parameter-position entry. -/
theorem createParameterPositions_spec_witness :
    ({ newPosition := 0, oldPosition := 0 } : ParameterPosition) ∈
      createParameterPositions (createOrderOfArgs ["x"] ["x", "y"]) :=
  (createParameterPositions_spec ⟨"", "", ["x"], []⟩ ⟨"", "", ["x", "y"], []⟩
    (fun _ => .error "") "").1.2.2 (0, 0) (by decide)

/-- C10: `getStepNameFromRunner` reads element 0 of the returned name list
unchecked; the read is in bounds (the `none` branch unreachable) under the
precondition that a present, unaliased response carries a non-empty name
list — and a present, unaliased response with an empty list does reach it. -/
theorem getStepNameFromRunner_head_access :
    (∀ (lineText : String) (resp : Except String StepNameResponse),
      (∀ r, resp = .ok r → r.isStepPresent = true → r.hasAlias = false →
        r.stepName ≠ []) →
      getStepNameFromRunner lineText resp ≠ none) ∧
    getStepNameFromRunner "" (.ok ⟨true, false, []⟩) = none := by
  refine ⟨?_, rfl⟩
  intro lineText resp hpre
  cases resp with
  | error e => simp [getStepNameFromRunner]
  | ok r =>
    cases hp : r.isStepPresent with
    | false => simp [getStepNameFromRunner, hp]
    | true =>
      cases ha : r.hasAlias with
      | true => simp [getStepNameFromRunner, hp, ha]
      | false =>
        have := hpre r rfl hp ha
        cases hlist : r.stepName with
        | nil => exact absurd hlist this
        | cons n rest => simp [getStepNameFromRunner, hp, ha, hlist]

/-- Witness for C10 at a concrete input: a present, unaliased response with a
non-empty name list never reaches the unchecked read. -/
theorem getStepNameFromRunner_head_access_witness :
    getStepNameFromRunner "l" (.ok ⟨true, false, ["s"]⟩) ≠ none :=
  getStepNameFromRunner_head_access.1 "l" (.ok ⟨true, false, ["s"]⟩)
    (by intro r hr _ _; cases hr; decide)

theorem addErrorsAndWarnings_spec (prs : List parseResult) :
    ∀ r : refactoringResult,
      addErrorsAndWarningsToRefactoringResult r prs =
        { r with success := r.success && prs.all fun pr => pr.ok,
                 errors := r.errors ++ collectErrors prs,
                 warnings := r.warnings ++ collectWarnings prs } := by
  induction prs with
  | nil =>
    intro r
    simp [addErrorsAndWarningsToRefactoringResult, collectErrors, collectWarnings]
  | cons pr rest ih =>
    intro r
    have hstep : addErrorsAndWarningsToRefactoringResult r (pr :: rest) =
        addErrorsAndWarningsToRefactoringResult
          (let acc' := if !pr.ok then
              { r with success := false, errors := r.errors ++ [pr.error] }
            else r
           { acc' with warnings := acc'.warnings ++ pr.warnings }) rest := rfl
    rw [hstep, ih]
    cases hok : pr.ok <;>
      simp [collectErrors, collectWarnings, hok, List.append_assoc]

theorem collectErrors_eq_nil (prs : List parseResult)
    (h : prs.all (fun pr => pr.ok) = true) : collectErrors prs = [] := by
  simp only [collectErrors, List.map_eq_nil_iff, List.filter_eq_nil_iff]
  intro pr hpr
  have := List.all_eq_true.mp h pr hpr
  simp [this]

/-- C7: invoking the refactoring with equal old and new phrases returns
immediately a failure result whose errors are exactly
`Same old step name and new step name.`, with success `false` and an empty
effect trace — no parsing, discovery, file write or runner contact. -/
theorem performRephraseRefactoring_samePhrase (env : refactorEnv) (s : String) :
    performRephraseRefactoring env s s =
      (some (rephraseFailure ["Same old step name and new step name."]), []) ∧
    rephraseFailure ["Same old step name and new step name."] =
      { success := false, specsChanged := [], conceptsChanged := [],
        runnerFilesChanged := [],
        errors := ["Same old step name and new step name."], warnings := [] } :=
  ⟨by simp [performRephraseRefactoring], rfl⟩

/-- C2: in `performRefactoringOn` the returned success flag is `true` exactly
when every runner stage succeeded — once a stage has failed, the flag is
false in the returned result and is never turned back on. -/
theorem performRefactoringOn_success_iff (oldStep newStep : step)
    (specs : List specification) (dict : List concept) (renv : runnerEnv)
    (r : refactoringResult)
    (h : (performRefactoringOn oldStep newStep specs dict renv).1 = some r) :
    r.success = true ↔
      renv.connErr = none ∧
      ∃ sn : String,
        getStepNameFromRunner oldStep.lineText renv.stepNameResp = some (.ok sn) ∧
        ∃ files : List String,
          (requestRunnerForRefactoring oldStep newStep renv sn).1 =
            some (files, none) := by
  simp only [performRefactoringOn] at h
  cases hc : renv.connErr with
  | some e =>
    rw [hc] at h
    simp only [Option.some.injEq] at h
    subst h
    simp [hc]
  | none =>
    rw [hc] at h
    cases hg : getStepNameFromRunner oldStep.lineText renv.stepNameResp with
    | none => rw [hg] at h; exact absurd h (by simp)
    | some ex =>
      rw [hg] at h
      cases ex with
      | error e =>
        simp only [Option.some.injEq] at h
        subst h
        simp [hg]
      | ok sn =>
        dsimp only at h
        cases hr : (requestRunnerForRefactoring oldStep newStep renv sn).1 with
        | none => rw [hr] at h; exact absurd h (by simp)
        | some fe =>
          obtain ⟨files, err⟩ := fe
          cases err with
          | some e =>
            rw [hr] at h
            simp only [Option.some.injEq] at h
            subst h
            simp only []
            constructor
            · intro hfalse; exact absurd hfalse (by simp)
            · rintro ⟨-, sn', hsn', files', hfiles'⟩
              simp only [Option.some.injEq, Except.ok.injEq] at hsn'
              subst hsn'
              rw [hr] at hfiles'
              simp at hfiles'
          | none =>
            rw [hr] at h
            simp only [Option.some.injEq] at h
            subst h
            constructor
            · intro _
              exact ⟨rfl, sn, rfl, files, hr⟩
            · intro _; rfl

/-- A sample step for concrete instantiations. -/
def sampleStep : step :=
  { value := "v", lineText := "l", args := [], fragments := [] }

/-- A runner environment whose connection attempt fails. -/
def connFailEnv : runnerEnv :=
  { connErr := some "boom", stepNameResp := .error "",
    extractSV := fun _ => .error "", refactorSend := fun _ => ⟨false, "", []⟩ }

/-- Witness for C2 at a concrete input: a failed connection leaves the
returned success flag off. -/
theorem performRefactoringOn_success_iff_witness :
    ¬ (({ success := false, specsChanged := [], conceptsChanged := [],
          runnerFilesChanged := [], errors := ["boom"],
          warnings := [] } : refactoringResult).success = true) := by
  have h := performRefactoringOn_success_iff sampleStep sampleStep [] [] connFailEnv
    { success := false, specsChanged := [], conceptsChanged := [],
      runnerFilesChanged := [], errors := ["boom"], warnings := [] } rfl
  intro hs
  have := (h.mp hs).1
  simp [connFailEnv] at this

theorem lookupFlag_updateFlag (m : List (String × Bool)) (g f : String) (b : Bool) :
    lookupFlag (updateFlag m g b) f = if g = f then b else lookupFlag m f := by
  induction m with
  | nil =>
    by_cases h : g = f
    · subst h; simp [lookupFlag, updateFlag, List.lookup]
    · simp [lookupFlag, updateFlag, List.lookup, beq_eq_false_iff_ne.mpr (Ne.symm h), h]
  | cons kv rest ih =>
    obtain ⟨k, c⟩ := kv
    by_cases hk : k = g
    · subst hk
      by_cases hf : k = f
      · subst hf
        simp [lookupFlag, updateFlag, List.lookup]
      · simp [lookupFlag, updateFlag, List.lookup,
          beq_eq_false_iff_ne.mpr (Ne.symm hf), hf]
    · by_cases hf : k = f
      · subst hf
        have hgf : ¬ g = k := fun hc => hk hc.symm
        simp [lookupFlag, updateFlag, List.lookup,
          beq_eq_false_iff_ne.mpr (fun hc : k = g => hk hc), hgf]
      · simp only [updateFlag, beq_eq_false_iff_ne.mpr (fun hc : k = g => hk hc),
          Bool.false_eq_true, if_false]
        simp only [lookupFlag, List.lookup_cons,
          beq_eq_false_iff_ne.mpr (Ne.symm hf)]
        exact ih

theorem conceptLoopBody_lookup (oldV : String) (c : concept) :
    ∀ (m : List (String × Bool)) (f : String),
      lookupFlag (conceptLoopBody oldV m c) f =
        if c.fileName = f then c.items.any (itemRenamed oldV) || lookupFlag m f
        else lookupFlag m f := by
  have hpre : ∀ (m : List (String × Bool)) (f : String),
      lookupFlag (updateFlag m c.fileName (lookupFlag m c.fileName)) f =
        lookupFlag m f := by
    intro m f
    rw [lookupFlag_updateFlag]
    by_cases h : c.fileName = f
    · subst h; simp
    · simp [h]
  have haux : ∀ (items : List conceptItem) (m : List (String × Bool)) (f : String),
      lookupFlag (items.foldl (fun acc it =>
        updateFlag acc c.fileName
          (itemRenamed oldV it || lookupFlag acc c.fileName)) m) f =
      if c.fileName = f then items.any (itemRenamed oldV) || lookupFlag m f
      else lookupFlag m f := by
    intro items
    induction items with
    | nil =>
      intro m f
      by_cases h : c.fileName = f <;> simp [h]
    | cons it rest ih =>
      intro m f
      simp only [List.foldl_cons, List.any_cons]
      rw [ih, lookupFlag_updateFlag]
      by_cases h : c.fileName = f
      · simp only [h, if_true, if_pos rfl]
        cases itemRenamed oldV it <;>
          cases rest.any (itemRenamed oldV) <;>
          cases lookupFlag m f <;> rfl
      · simp [h]
  intro m f
  simp only [conceptLoopBody]
  rw [haux, hpre]

theorem conceptFlags_lookup (oldV : String) (dict : List concept) :
    ∀ (m : List (String × Bool)) (f : String),
      lookupFlag (dict.foldl (conceptLoopBody oldV) m) f =
        ((dict.any fun c => c.fileName == f && c.items.any (itemRenamed oldV)) ||
          lookupFlag m f) := by
  induction dict with
  | nil => intro m f; simp
  | cons c rest ih =>
    intro m f
    simp only [List.foldl_cons, List.any_cons]
    rw [ih, conceptLoopBody_lookup]
    by_cases h : c.fileName = f
    · simp only [h, if_pos rfl, beq_self_eq_true, Bool.true_and]
      cases c.items.any (itemRenamed oldV) <;>
        cases rest.any (fun c => c.fileName == f && c.items.any (itemRenamed oldV)) <;>
        cases lookupFlag m f <;> rfl
    · simp [h, beq_eq_false_iff_ne.mpr h]

theorem documentStage_ne_nil (oldStep newStep : step) (specs : List specification)
    (dict : List concept)
    (h : ∃ sp ∈ specs, (renameSteps oldStep.value newStep.value sp).2 = true) :
    (documentStage oldStep newStep specs dict).1.1 ≠ [] := by
  obtain ⟨sp, hsp, hflag⟩ := h
  have hmem : renameSteps oldStep.value newStep.value sp ∈
      specs.map (renameSteps oldStep.value newStep.value) :=
    List.mem_map_of_mem _ hsp
  simp only [documentStage, rephraseInSpecsAndConcepts, writeToConceptAndSpecFiles]
  intro hnil
  rw [List.map_eq_nil_iff, List.filter_eq_nil_iff] at hnil
  exact absurd hflag (by simpa using hnil _ hmem)

theorem documentStage_concepts_ne_nil (oldStep newStep : step)
    (specs : List specification) (dict : List concept)
    (h : ∃ c ∈ dict, c.items.any (itemRenamed oldStep.value) = true) :
    (documentStage oldStep newStep specs dict).1.2 ≠ [] := by
  obtain ⟨c, hc, hmatch⟩ := h
  have hflag : lookupFlag (dict.foldl (conceptLoopBody oldStep.value) [])
      c.fileName = true := by
    rw [conceptFlags_lookup]
    have hany : (dict.any fun x =>
        x.fileName == c.fileName && x.items.any (itemRenamed oldStep.value)) =
          true :=
      List.any_eq_true.mpr ⟨c, hc, by simp [hmatch]⟩
    simp [hany]
  have hkey : c.fileName ∈ conceptFileKeys dict := by
    simp only [conceptFileKeys, List.mem_dedup]
    exact List.mem_map_of_mem _ hc
  simp only [documentStage, rephraseInSpecsAndConcepts, writeToConceptAndSpecFiles]
  intro hnil
  rw [List.filter_eq_nil_iff] at hnil
  exact absurd hflag (by simpa using hnil c.fileName hkey)

/-- C3: when a runner-layer stage fails (connection, step-name resolution, or
refactor request), the result still carries the spec and concept changed-file
lists computed and persisted by the document stage (each non-empty whenever a
document of its layer matched), its success flag is false, no runner-files
entries are added, and a refactor-request-stage failure's error message opens
with `Only spec files and concepts refactored: `. -/
theorem performRefactoringOn_nonRetracting (oldStep newStep : step)
    (specs : List specification) (dict : List concept) (renv : runnerEnv)
    (hfail :
      (∃ e, renv.connErr = some e) ∨
      (renv.connErr = none ∧
        ∃ e, getStepNameFromRunner oldStep.lineText renv.stepNameResp =
          some (.error e)) ∨
      (renv.connErr = none ∧
        ∃ sn, getStepNameFromRunner oldStep.lineText renv.stepNameResp =
          some (.ok sn) ∧
        ∃ files e, (requestRunnerForRefactoring oldStep newStep renv sn).1 =
          some (files, some e))) :
    ∃ r, (performRefactoringOn oldStep newStep specs dict renv).1 = some r ∧
      r.specsChanged = (documentStage oldStep newStep specs dict).1.1 ∧
      r.conceptsChanged = (documentStage oldStep newStep specs dict).1.2 ∧
      r.success = false ∧
      r.runnerFilesChanged = [] ∧
      ((∃ sp ∈ specs, (renameSteps oldStep.value newStep.value sp).2 = true) →
        r.specsChanged ≠ []) ∧
      ((∃ c ∈ dict, c.items.any (itemRenamed oldStep.value) = true) →
        r.conceptsChanged ≠ []) ∧
      (∀ sn files e, renv.connErr = none →
        getStepNameFromRunner oldStep.lineText renv.stepNameResp = some (.ok sn) →
        (requestRunnerForRefactoring oldStep newStep renv sn).1 =
          some (files, some e) →
        r.errors = ["Only spec files and concepts refactored: " ++ e]) := by
  rcases hfail with ⟨e, hc⟩ | ⟨hc, e, hg⟩ | ⟨hc, sn, hg, files, e, hr⟩
  · refine ⟨{ success := false,
              specsChanged := (documentStage oldStep newStep specs dict).1.1,
              conceptsChanged := (documentStage oldStep newStep specs dict).1.2,
              runnerFilesChanged := [], errors := [e], warnings := [] },
      ?_, rfl, rfl, rfl, rfl,
      fun hm => documentStage_ne_nil oldStep newStep specs dict hm,
      fun hm => documentStage_concepts_ne_nil oldStep newStep specs dict hm, ?_⟩
    · simp [performRefactoringOn, hc]
    · intro sn files e' hnone
      rw [hc] at hnone
      exact absurd hnone (by simp)
  · refine ⟨{ success := false,
              specsChanged := (documentStage oldStep newStep specs dict).1.1,
              conceptsChanged := (documentStage oldStep newStep specs dict).1.2,
              runnerFilesChanged := [], errors := [e], warnings := [] },
      ?_, rfl, rfl, rfl, rfl,
      fun hm => documentStage_ne_nil oldStep newStep specs dict hm,
      fun hm => documentStage_concepts_ne_nil oldStep newStep specs dict hm, ?_⟩
    · simp [performRefactoringOn, hc, hg]
    · intro sn files e' hnone hsn
      rw [hg] at hsn
      simp at hsn
  · refine ⟨{ success := false,
              specsChanged := (documentStage oldStep newStep specs dict).1.1,
              conceptsChanged := (documentStage oldStep newStep specs dict).1.2,
              runnerFilesChanged := [],
              errors := ["Only spec files and concepts refactored: " ++ e],
              warnings := [] },
      ?_, rfl, rfl, rfl, rfl,
      fun hm => documentStage_ne_nil oldStep newStep specs dict hm,
      fun hm => documentStage_concepts_ne_nil oldStep newStep specs dict hm, ?_⟩
    · simp [performRefactoringOn, hc, hg, hr]
    · intro sn' files' e' hnone hsn hreq
      rw [hg] at hsn
      simp only [Option.some.injEq, Except.ok.injEq] at hsn
      subst hsn
      rw [hr] at hreq
      simp only [Option.some.injEq, Prod.mk.injEq] at hreq
      obtain ⟨-, he⟩ := hreq
      rw [← he]

/-- A specification document containing one occurrence of the sample step. -/
def sampleSpecDoc : specification := { fileName := "a.spec", steps := ["v"] }

/-- A concept document using one occurrence of the sample step in its body. -/
def sampleConceptDoc : concept :=
  { fileName := "c.cpt", items := [conceptItem.stepItem "v"] }

/-- Witness for C3 at a concrete input: with one matching specification, one
matching concept and a failed connection, the document-layer lists survive in
a failed result. -/
theorem performRefactoringOn_nonRetracting_witness :
    ∃ r, (performRefactoringOn sampleStep sampleStep [sampleSpecDoc]
        [sampleConceptDoc] connFailEnv).1 = some r ∧
      r.specsChanged =
        (documentStage sampleStep sampleStep [sampleSpecDoc] [sampleConceptDoc]).1.1 ∧
      r.conceptsChanged =
        (documentStage sampleStep sampleStep [sampleSpecDoc] [sampleConceptDoc]).1.2 ∧
      r.success = false ∧
      r.runnerFilesChanged = [] ∧
      ((∃ sp ∈ [sampleSpecDoc],
          (renameSteps sampleStep.value sampleStep.value sp).2 = true) →
        r.specsChanged ≠ []) ∧
      ((∃ c ∈ [sampleConceptDoc],
          c.items.any (itemRenamed sampleStep.value) = true) →
        r.conceptsChanged ≠ []) ∧
      (∀ sn files e, connFailEnv.connErr = none →
        getStepNameFromRunner sampleStep.lineText connFailEnv.stepNameResp =
          some (.ok sn) →
        (requestRunnerForRefactoring sampleStep sampleStep connFailEnv sn).1 =
          some (files, some e) →
        r.errors = ["Only spec files and concepts refactored: " ++ e]) :=
  performRefactoringOn_nonRetracting sampleStep sampleStep [sampleSpecDoc]
    [sampleConceptDoc] connFailEnv (Or.inl ⟨"boom", rfl⟩)

/-- C4: when parsing the specifications or the concept dictionary fails, the
operation short-circuits — the returned result carries only the collected
errors and warnings with success `false`, its file lists are empty, and the
effect trace holds no document rewrite, file write, or runner contact. -/
theorem performRephraseRefactoring_parseFailure (env : refactorEnv)
    (oldS newS : String) (hne : ¬ newS = oldS) (oldStep newStep : step)
    (hagent : env.agentResult = .ok (oldStep, newStep)) (root : String)
    (hroot : env.projectRoot = .ok root)
    (hfail : env.specParseResults.all (fun pr => pr.ok) = false ∨
             env.conceptParseResult.ok = false) :
    ∃ r effs, performRephraseRefactoring env oldS newS = (some r, effs) ∧
      r.success = false ∧
      r.specsChanged = [] ∧ r.conceptsChanged = [] ∧ r.runnerFilesChanged = [] ∧
      (if env.specParseResults.all (fun pr => pr.ok) = true then
        r.errors = collectErrors [env.conceptParseResult] ∧
        r.warnings = collectWarnings env.specParseResults ++
          collectWarnings [env.conceptParseResult]
       else
        r.errors = collectErrors env.specParseResults ∧
        r.warnings = collectWarnings env.specParseResults) ∧
      (∀ e ∈ effs, e.isMutation = false) := by
  have hbase := addErrorsAndWarnings_spec env.specParseResults
    { success := true, specsChanged := [], conceptsChanged := [],
      runnerFilesChanged := [], errors := [], warnings := [] }
  cases hall : env.specParseResults.all (fun pr => pr.ok) with
  | false =>
    refine ⟨{ success := false, specsChanged := [], conceptsChanged := [],
              runnerFilesChanged := [],
              errors := collectErrors env.specParseResults,
              warnings := collectWarnings env.specParseResults },
      [effect.phraseParse, effect.projectRootLookup, effect.specsDiscovery],
      ?_, rfl, rfl, rfl, rfl, ?_, ?_⟩
    · simp only [performRephraseRefactoring, hagent, hroot, if_neg hne]
      rw [hbase, hall]
      simp
    · simp
    · intro e he
      fin_cases he <;> rfl
  | true =>
    rcases hfail with hfl | hconc
    · rw [hall] at hfl
      exact absurd hfl (by simp)
    · refine ⟨{ success := false, specsChanged := [], conceptsChanged := [],
                runnerFilesChanged := [],
                errors := collectErrors [env.conceptParseResult],
                warnings := collectWarnings env.specParseResults ++
                  collectWarnings [env.conceptParseResult] },
        [effect.phraseParse, effect.projectRootLookup, effect.specsDiscovery,
         effect.conceptsDiscovery],
        ?_, rfl, rfl, rfl, rfl, ?_, ?_⟩
      · simp only [performRephraseRefactoring, hagent, hroot, if_neg hne]
        rw [hbase, hall, addErrorsAndWarnings_spec [env.conceptParseResult],
          collectErrors_eq_nil env.specParseResults hall]
        simp [hconc]
      · simp
      · intro e he
        fin_cases he <;> rfl

/-- A refactoring environment whose specification parsing fails. -/
def parseFailEnv : refactorEnv :=
  { agentResult := .ok (sampleStep, sampleStep), projectRoot := .ok "root",
    specs := [], specParseResults := [⟨false, "parse err", ["w1"]⟩],
    concepts := [], conceptParseResult := ⟨true, "", []⟩,
    runner := connFailEnv }

/-- Witness for C4 at a concrete input: a failing specification parse result
short-circuits the refactoring. -/
theorem performRephraseRefactoring_parseFailure_witness :
    ∃ r effs, performRephraseRefactoring parseFailEnv "old" "new" = (some r, effs) ∧
      r.success = false ∧
      r.specsChanged = [] ∧ r.conceptsChanged = [] ∧ r.runnerFilesChanged = [] ∧
      (if parseFailEnv.specParseResults.all (fun pr => pr.ok) = true then
        r.errors = collectErrors [parseFailEnv.conceptParseResult] ∧
        r.warnings = collectWarnings parseFailEnv.specParseResults ++
          collectWarnings [parseFailEnv.conceptParseResult]
       else
        r.errors = collectErrors parseFailEnv.specParseResults ∧
        r.warnings = collectWarnings parseFailEnv.specParseResults) ∧
      (∀ e ∈ effs, e.isMutation = false) :=
  performRephraseRefactoring_parseFailure parseFailEnv "old" "new" (by decide)
    sampleStep sampleStep rfl "root" rfl (Or.inl rfl)

/-- C8: a document whose per-document changed flag is false — which holds
whenever it contains zero occurrences of the old step — is never added to
the specs-changed or concepts-changed list and is never written; only
flagged documents are listed and written. -/
theorem writeOnlyChangedDocuments :
    (∀ (specsRef : List (specification × Bool)) (keys : List String)
        (flags : List (String × Bool)) (f : String),
      (f ∈ (writeToConceptAndSpecFiles specsRef keys flags).1.1 ↔
        ∃ sb ∈ specsRef, sb.2 = true ∧ sb.1.fileName = f) ∧
      (f ∈ (writeToConceptAndSpecFiles specsRef keys flags).1.2 ↔
        f ∈ keys ∧ lookupFlag flags f = true) ∧
      (effect.fileWrite f ∈ (writeToConceptAndSpecFiles specsRef keys flags).2 ↔
        (f ∈ (writeToConceptAndSpecFiles specsRef keys flags).1.1 ∨
          f ∈ (writeToConceptAndSpecFiles specsRef keys flags).1.2))) ∧
    (∀ oldV newV doc, (∀ s ∈ doc.steps, s ≠ oldV) →
      (renameSteps oldV newV doc).2 = false) ∧
    (∀ oldV newV specs dict f,
      (∀ c ∈ dict, c.fileName = f → ∀ it ∈ c.items, itemRenamed oldV it = false) →
      lookupFlag (rephraseInSpecsAndConcepts oldV newV specs dict).2 f = false) := by
  refine ⟨?_, ?_, ?_⟩
  · intro specsRef keys flags f
    refine ⟨?_, ?_, ?_⟩
    · simp only [writeToConceptAndSpecFiles, List.mem_map, List.mem_filter]
      constructor
      · rintro ⟨sb, ⟨hmem, hflag⟩, rfl⟩
        exact ⟨sb, hmem, hflag, rfl⟩
      · rintro ⟨sb, hmem, hflag, rfl⟩
        exact ⟨sb, ⟨hmem, hflag⟩, rfl⟩
    · simp [writeToConceptAndSpecFiles, List.mem_filter]
    · simp [writeToConceptAndSpecFiles, List.mem_append, List.mem_map,
        List.mem_filter]
  · intro oldV newV doc h
    simp only [renameSteps]
    rw [List.any_eq_false]
    intro s hs
    simpa using h s hs
  · intro oldV newV specs dict f h
    simp only [rephraseInSpecsAndConcepts]
    rw [conceptFlags_lookup]
    have hany : (dict.any fun c =>
        c.fileName == f && c.items.any (itemRenamed oldV)) = false := by
      rw [List.any_eq_false]
      intro c hc
      by_cases hcf : c.fileName = f
      · have hitems : c.items.any (itemRenamed oldV) = false := by
          rw [List.any_eq_false]
          intro it hit
          simp [h c hc hcf it hit]
        simp [hitems]
      · simp [beq_eq_false_iff_ne.mpr hcf]
    rw [hany]
    simp [lookupFlag]

/-- Witness for C8 at a concrete input: a document with no occurrence of the
old step is not flagged. -/
theorem writeOnlyChangedDocuments_witness :
    (renameSteps "v" "n" { fileName := "a.spec", steps := ["x"] }).2 = false :=
  writeOnlyChangedDocuments.2.1 "v" "n" { fileName := "a.spec", steps := ["x"] }
    (by decide)

end Gauge
